import Mathlib

/-!
Verification of the analog-filter realizability core of the
filter_responses repository: the continued-fraction Hurwitz test
(realizations.py) and the transfer-function pipeline
(filter_prototypes.py).

Real coefficients are modelled as rationals so that every operation is
exactly computable; complex-valued transfer functions are modelled over
the mathematical complex numbers.
-/

/-- Error outcomes of the Python code, named after the exception that the
interpreter would raise: a numpy ValueError (empty coefficient array given
to a polynomial routine), a ZeroDivisionError (polynomial division by a
zero polynomial), or an IndexError (out-of-bounds array access, in
particular indexing into an empty nonzero-index array or into a
length-one quotient). -/
inductive Err where
  | valueError
  | zeroDivisionError
  | indexError
deriving DecidableEq

/-- Decidable equality of Except values, by cases on the constructors. -/
instance {e a : Type} [DecidableEq e] [DecidableEq a] : DecidableEq (Except e a) := fun x y =>
  match x, y with
  | .ok u, .ok v =>
    if h : u = v then .isTrue (by rw [h]) else .isFalse (by intro hc; cases hc; exact h rfl)
  | .error u, .error v =>
    if h : u = v then .isTrue (by rw [h]) else .isFalse (by intro hc; cases hc; exact h rfl)
  | .ok _, .error _ => .isFalse (by intro hc; cases hc)
  | .error _, .ok _ => .isFalse (by intro hc; cases hc)

/-- Index of the last nonzero coefficient of a coefficient list, mirroring
np.nonzero(a)[0][-1]; none when every coefficient is zero (the Python code
then raises an IndexError). -/
def lastNonzeroIdx (l : List ℚ) : Option ℕ :=
  (List.range l.length).reverse.find? (fun i => decide (l.getD i 0 ≠ 0))

/-- Mirror of numpy.polynomial.polyutils.trimseq: drop trailing zero
coefficients, keeping a single leading entry when the whole sequence is
zero. -/
def trimseq (l : List ℚ) : List ℚ :=
  match lastNonzeroIdx l with
  | some i => l.take (i + 1)
  | none => l.take 1

/-- Descending loop of numpy.polynomial.polyutils._div: at step i the
divisor is shifted by i places, the leading coefficient ratio q is
recorded as quotient coefficient i, and the remainder loses its leading
entry. The quotient list is returned in ascending-power order. -/
def divLoop (c2 : List ℚ) : ℕ → List ℚ → List ℚ × List ℚ
  | 0, rem =>
    let p := c2
    let q := rem.getLastD 0 / p.getLastD 0
    ([q], rem.dropLast.zipWith (fun r x => r - q * x) p.dropLast)
  | i + 1, rem =>
    let p := List.replicate (i + 1) (0 : ℚ) ++ c2
    let q := rem.getLastD 0 / p.getLastD 0
    let rem' := rem.dropLast.zipWith (fun r x => r - q * x) p.dropLast
    let (qs, r) := divLoop c2 i rem'
    (qs ++ [q], r)

/-- Mirror of numpy.polynomial.polynomial.polydiv on ascending-power
coefficient lists: both inputs are trimmed (as_series), division by the
zero polynomial raises ZeroDivisionError, a lower-degree numerator gives
quotient [0] and remainder c1, a constant divisor divides elementwise,
and otherwise the euclidean loop runs with the remainder re-trimmed. -/
def polydiv (c1 c2 : List ℚ) : Except Err (List ℚ × List ℚ) :=
  if c1.isEmpty || c2.isEmpty then .error .valueError
  else
    let c1t := trimseq c1
    let c2t := trimseq c2
    if c2t.getLastD 0 = 0 then .error .zeroDivisionError
    else if c1t.length < c2t.length then .ok ([0], c1t)
    else if c2t.length = 1 then .ok (c1t.map (· / c2t.getLastD 0), [0])
    else
      let qr := divLoop c2t (c1t.length - c2t.length) c1t
      .ok (qr.1, trimseq qr.2)

/-- Loop body of continued_fractions in realizations.py: k iterations,
each dividing num by den, reading quo[1] (IndexError when the quotient
has no linear term), and continuing with (den, rem). -/
def cfLoop : ℕ → List ℚ → List ℚ → Except Err (List ℚ)
  | 0, _, _ => .ok []
  | k + 1, num, den =>
    match polydiv num den with
    | .error e => .error e
    | .ok (quo, rem) =>
      match quo[1]? with
      | none => .error .indexError
      | some a =>
        match cfLoop k den rem with
        | .error e => .error e
        | .ok rest => .ok (a :: rest)

/-- Mirror of continued_fractions in realizations.py. Both degrees are
computed up front (IndexError on an all-zero input); the source then
builds a ValueError for den_deg > num_deg without raising it — a dead
statement, so no check occurs here either — and runs num_deg loop
iterations. -/
def continued_fractions (num den : List ℚ) : Except Err (List ℚ) :=
  match lastNonzeroIdx num with
  | none => .error .indexError
  | some numDeg =>
    match lastNonzeroIdx den with
    | none => .error .indexError
    | some _denDeg =>
      cfLoop numDeg num den

/-- Even-power part built by is_hurwitz: a same-length list that keeps the
even-indexed coefficients of pol and zeroes the rest. -/
def evenPol (pol : List ℚ) : List ℚ :=
  (List.range pol.length).map (fun i => if i % 2 = 0 then pol.getD i 0 else 0)

/-- Odd-power part built by is_hurwitz: a same-length list that keeps the
odd-indexed coefficients of pol and zeroes the rest. -/
def oddPol (pol : List ℚ) : List ℚ :=
  (List.range pol.length).map (fun i => if i % 2 = 1 then pol.getD i 0 else 0)

/-- Mirror of is_hurwitz in realizations.py with get_cof=False: split into
even and odd parts, take their degrees (odd first, as in the source),
choose (num, den) by the m > n tie-break, run the continued-fraction
expansion, and test that every alpha is strictly positive. -/
def is_hurwitz (pol : List ℚ) : Except Err Bool :=
  match lastNonzeroIdx (oddPol pol) with
  | none => .error .indexError
  | some n =>
    match lastNonzeroIdx (evenPol pol) with
    | none => .error .indexError
    | some m =>
      let num := if m > n then evenPol pol else oddPol pol
      let den := if m > n then oddPol pol else evenPol pol
      match continued_fractions num den with
      | .error e => .error e
      | .ok alphas => .ok (alphas.all (fun a => decide (0 < a)))

/-- Mirror of is_hurwitz in realizations.py with get_cof=True: same
computation, also returning the alpha sequence. -/
def is_hurwitz_cof (pol : List ℚ) : Except Err (Bool × List ℚ) :=
  match lastNonzeroIdx (oddPol pol) with
  | none => .error .indexError
  | some n =>
    match lastNonzeroIdx (evenPol pol) with
    | none => .error .indexError
    | some m =>
      let num := if m > n then evenPol pol else oddPol pol
      let den := if m > n then oddPol pol else evenPol pol
      match continued_fractions num den with
      | .error e => .error e
      | .ok alphas => .ok (alphas.all (fun a => decide (0 < a)), alphas)

attribute [local semireducible] Rat.mul Rat.inv Rat.add Rat.sub

/-- Spec-side recursion for the continued-fraction expansion, following the
specification text: repeatedly divide num by den obtaining quotient and
remainder, record the linear-term coefficient of the quotient as the next
alpha, continue with (den, rem); the number of steps is fixed in advance. -/
def specAlphas : ℕ → List ℚ → List ℚ → Option (List ℚ)
  | 0, _, _ => some []
  | k + 1, num, den =>
    match polydiv num den with
    | .error _ => none
    | .ok (quo, rem) =>
      match quo[1]? with
      | none => none
      | some a =>
        match specAlphas k den rem with
        | none => none
        | some rest => some (a :: rest)

/-- Helper: a successful run of the continued-fraction loop with fuel k
returns exactly k alpha coefficients. -/
theorem cfLoop_ok_length : ∀ (k : ℕ) (num den as : List ℚ),
    cfLoop k num den = .ok as → as.length = k := by
  intro k
  induction k with
  | zero =>
    intro num den as h
    simp only [cfLoop] at h
    injection h with h2
    rw [← h2]
    rfl
  | succ k ih =>
    intro num den as h
    simp only [cfLoop] at h
    split at h
    · injection h
    · rename_i s1 quo rem hpd
      split at h
      · injection h
      · rename_i s2 a hq
        split at h
        · injection h
        · rename_i s3 rest hrest
          injection h with h2
          rw [← h2, List.length_cons, ih _ _ _ hrest]

/-- Helper: a successful run of the continued-fraction loop agrees with the
spec-side recursion of the same depth. -/
theorem cfLoop_specAlphas : ∀ (k : ℕ) (num den as : List ℚ),
    cfLoop k num den = .ok as → specAlphas k num den = some as := by
  intro k
  induction k with
  | zero =>
    intro num den as h
    simp only [cfLoop] at h
    injection h with h2
    rw [← h2]
    rfl
  | succ k ih =>
    intro num den as h
    simp only [cfLoop] at h
    split at h
    · injection h
    · rename_i s1 quo rem hpd
      split at h
      · injection h
      · rename_i s2 a hq
        split at h
        · injection h
        · rename_i s3 rest hrest
          injection h with h2
          rw [← h2]
          simp only [specAlphas, hpd, hq, ih _ _ _ hrest]

/-- Claim C3: on the concrete ascending-coefficient inputs, is_hurwitz accepts
[6, 11, 6, 1] with the all-positive expansion [1/6, 3/5, 5/3], rejects
[1, 1, 1, 2] with expansion [2, -1, -1] containing non-positive entries,
and accepts the third-order Butterworth denominator [1, 2, 2, 1]. -/
theorem is_hurwitz_known_cases :
    is_hurwitz [6, 11, 6, 1] = .ok true ∧
    is_hurwitz_cof [6, 11, 6, 1] = .ok (true, [1/6, 3/5, 5/3]) ∧
    (([1/6, 3/5, 5/3] : List ℚ).all fun a => decide (0 < a)) = true ∧
    is_hurwitz [1, 1, 1, 2] = .ok false ∧
    is_hurwitz_cof [1, 1, 1, 2] = .ok (false, [2, -1, -1]) ∧
    (([2, -1, -1] : List ℚ).all fun a => decide (0 < a)) = false ∧
    is_hurwitz [1, 2, 2, 1] = .ok true := by
  decide

/-- Claim C5: continued_fractions never raises on a lower-degree numerator: the
source constructs the ValueError without raising it, so the call with
num = [1], den = [1, 1] runs to completion and silently returns an empty
sequence, and the call with num = [0, 1], den = [1, 1, 1] proceeds into
the loop and dies on the out-of-bounds quotient access instead of the
documented degree-order error. -/
theorem continued_fractions_degree_order_not_enforced :
    continued_fractions [1] [1, 1] = .ok [] ∧
    continued_fractions [0, 1] [1, 1, 1] = .error .indexError := by
  decide

/-- Claim C2 counterexample: with num = den = [1, 1] the degrees are equal (so
degree(num) >= degree(den) holds), the single division is defined and
returns the constant quotient [1] with remainder [0], yet the call fails
with an IndexError on quo[1] instead of returning a length-1 sequence. -/
theorem continued_fractions_equal_degree_cex :
    lastNonzeroIdx [1, 1] = some 1 ∧
    polydiv [1, 1] [1, 1] = .ok ([1], [0]) ∧
    continued_fractions [1, 1] [1, 1] = .error .indexError := by
  decide

/-- Claim C2 amended: whenever continued_fractions returns a sequence at all,
it performed exactly degree(num) division steps — the result has length
equal to the initial degree of num and is precisely the sequence produced
by the spec-side recursion that divides num by den, records the
linear-term coefficient of each quotient, and continues with (den, rem). -/
theorem continued_fractions_ok_iterations (num den : List ℚ) (d : ℕ) (as : List ℚ)
    (hd : lastNonzeroIdx num = some d)
    (h : continued_fractions num den = .ok as) :
    as.length = d ∧ specAlphas d num den = some as := by
  unfold continued_fractions at h
  rw [hd] at h
  cases he : lastNonzeroIdx den with
  | none => rw [he] at h; injection h
  | some e =>
    rw [he] at h
    exact ⟨cfLoop_ok_length d num den as h, cfLoop_specAlphas d num den as h⟩

/-- Witness for the amended C2 at num = [0, 1], den = [1]. -/
theorem continued_fractions_ok_iterations_witness :
    ([1] : List ℚ).length = 1 ∧ specAlphas 1 [0, 1] [1] = some [1] :=
  continued_fractions_ok_iterations [0, 1] [1] 1 [1] rfl rfl

/-- Claim C10: for constant nonzero numerator and denominator (degree 0 each)
the loop runs zero times and continued_fractions returns the empty alpha
sequence with no error; the strict-positivity check accepts the empty
sequence vacuously. -/
theorem continued_fractions_constants (num den : List ℚ)
    (h1 : lastNonzeroIdx num = some 0) (h2 : lastNonzeroIdx den = some 0) :
    continued_fractions num den = .ok [] ∧
    (([] : List ℚ).all fun a => decide (0 < a)) = true := by
  constructor
  · unfold continued_fractions
    rw [h1, h2]
    rfl
  · rfl

/-- Witness for C10 at num = [5], den = [3]. -/
theorem continued_fractions_constants_witness :
    continued_fractions [5] [3] = .ok [] ∧
    (([] : List ℚ).all fun a => decide (0 < a)) = true :=
  continued_fractions_constants [5] [3] rfl rfl

/-- Helper: a list whose members are all zero has no nonzero index. -/
theorem lastNonzeroIdx_eq_none (l : List ℚ) (h : ∀ x ∈ l, x = 0) :
    lastNonzeroIdx l = none := by
  unfold lastNonzeroIdx
  rw [List.find?_eq_none]
  intro i hi
  rw [List.mem_reverse, List.mem_range] at hi
  simp only [decide_eq_true_eq, not_not]
  rw [List.getD_eq_getElem?_getD, List.getElem?_eq_getElem hi]
  exact h _ (List.getElem_mem hi)

/-- Helper: trimming an all-zero list leaves a list whose last entry is
zero, so numpy division by it raises ZeroDivisionError. -/
theorem trimseq_zero (l : List ℚ) (h : ∀ x ∈ l, x = 0) :
    (trimseq l).getLastD 0 = 0 := by
  unfold trimseq
  rw [lastNonzeroIdx_eq_none l h]
  cases l with
  | nil => rfl
  | cons d t =>
    have : ((d :: t).take 1).getLastD 0 = d := rfl
    rw [this]
    exact h d (by simp)

/-- Helper: polynomial division by a (nonempty) zero polynomial fails with
ZeroDivisionError, as numpy.polynomial.polynomial.polydiv does. -/
theorem polydiv_zero_den (num den : List ℚ) (hnum : num ≠ []) (hden : den ≠ [])
    (hzero : ∀ x ∈ den, x = 0) : polydiv num den = .error .zeroDivisionError := by
  unfold polydiv
  have h1 : ¬((num.isEmpty || den.isEmpty) = true) := by
    simp [hnum, hden]
  rw [if_neg h1, if_pos (trimseq_zero den hzero)]

/-- Reachability of an intermediate loop state of continued_fractions: from
the state (num, den) with k iterations left, zero or more successful
iterations (division defined, quotient with a linear term) lead to the
state (num2, den2) with k2 iterations left. -/
inductive cfReaches : List ℚ → List ℚ → ℕ → List ℚ → List ℚ → ℕ → Prop
  | refl (num den : List ℚ) (k : ℕ) : cfReaches num den k num den k
  | step {num den quo rem num2 den2 : List ℚ} {a : ℚ} {k k2 : ℕ} :
      polydiv num den = .ok (quo, rem) → quo[1]? = some a →
      cfReaches den rem k num2 den2 k2 → cfReaches num den (k + 1) num2 den2 k2

/-- Helper: once the loop reaches a zero denominator with iterations still
to go, the whole loop run evaluates to ZeroDivisionError. -/
theorem cfLoop_reaches_zero_den {num den : List ℚ} {k : ℕ} {num2 den2 : List ℚ} {k3 : ℕ}
    (hr : cfReaches num den k num2 den2 k3) :
    k3 ≠ 0 → num2 ≠ [] → den2 ≠ [] → (∀ x ∈ den2, x = 0) →
    cfLoop k num den = .error .zeroDivisionError := by
  induction hr with
  | refl n d kk =>
    intro hk hn hd hz
    cases kk with
    | zero => exact absurd rfl hk
    | succ m => simp [cfLoop, polydiv_zero_den n d hn hd hz]
  | step hpd hq hrest ih =>
    intro hk hn hd hz
    simp [cfLoop, hpd, hq, ih hk hn hd hz]

/-- Claim C6: if some intermediate denominator in the continued-fraction loop
becomes the zero polynomial while iterations remain, continued_fractions
fails with the ZeroDivisionError raised by the polynomial division — the
failure the specification names DegenerateInput — which is surfaced to
the caller and is distinct from every successful result. -/
theorem continued_fractions_zero_den (num den : List ℚ) (d e : ℕ)
    (hnum : lastNonzeroIdx num = some d) (hden : lastNonzeroIdx den = some e)
    (num2 den2 : List ℚ) (k2 : ℕ)
    (hr : cfReaches num den d num2 den2 (k2 + 1))
    (hnum2 : num2 ≠ []) (hden2 : den2 ≠ []) (hzero2 : ∀ x ∈ den2, x = 0) :
    continued_fractions num den = .error .zeroDivisionError ∧
    ∀ as : List ℚ, continued_fractions num den ≠ .ok as := by
  have hloop := cfLoop_reaches_zero_den hr (Nat.succ_ne_zero k2) hnum2 hden2 hzero2
  have hcf : continued_fractions num den = .error .zeroDivisionError := by
    unfold continued_fractions
    rw [hnum, hden]
    exact hloop
  refine ⟨hcf, fun as hc => ?_⟩
  rw [hcf] at hc
  injection hc

/-- Witness for C6: dividing x^2 by x leaves the zero remainder after the
first step, and the second step then fails. -/
theorem continued_fractions_zero_den_witness :
    continued_fractions [0, 0, 1] [0, 1] = .error .zeroDivisionError :=
  (continued_fractions_zero_den [0, 0, 1] [0, 1] 2 1 rfl rfl [0, 1] [0] 0
    (cfReaches.step rfl rfl (cfReaches.refl [0, 1] [0] 1)) (by simp) (by simp)
    (by intro x hx; simpa using hx)).1

/-- Helper: when every even-indexed coefficient of pol is zero, the even
part built by is_hurwitz is the all-zero list. -/
theorem evenPol_all_zero (pol : List ℚ)
    (h : ∀ i, i < pol.length → i % 2 = 0 → pol.getD i 0 = 0) :
    ∀ x ∈ evenPol pol, x = 0 := by
  intro x hx
  unfold evenPol at hx
  obtain ⟨i, hi, hfi⟩ := List.mem_map.mp hx
  rw [List.mem_range] at hi
  rw [← hfi]
  by_cases h2 : i % 2 = 0
  · simp only [h2, if_pos rfl]
    exact h i hi h2
  · simp [h2]

/-- Helper: when every odd-indexed coefficient of pol is zero, the odd
part built by is_hurwitz is the all-zero list. -/
theorem oddPol_all_zero (pol : List ℚ)
    (h : ∀ i, i < pol.length → i % 2 = 1 → pol.getD i 0 = 0) :
    ∀ x ∈ oddPol pol, x = 0 := by
  intro x hx
  unfold oddPol at hx
  obtain ⟨i, hi, hfi⟩ := List.mem_map.mp hx
  rw [List.mem_range] at hi
  rw [← hfi]
  by_cases h2 : i % 2 = 1
  · simp only [h2, if_pos rfl]
    exact h i hi h2
  · simp [h2]

/-- Claim C7: when the input polynomial lacks a nonzero coefficient in the even
index set or in the odd index set, is_hurwitz does not return a boolean:
it fails with the IndexError raised by looking up the last nonzero index
of an all-zero part — the failure the specification names
DegenerateSplit. -/
theorem is_hurwitz_degenerate_split (pol : List ℚ)
    (h : (∀ i, i < pol.length → i % 2 = 0 → pol.getD i 0 = 0) ∨
         (∀ i, i < pol.length → i % 2 = 1 → pol.getD i 0 = 0)) :
    is_hurwitz pol = .error .indexError ∧ is_hurwitz_cof pol = .error .indexError := by
  cases h with
  | inl heven =>
    have hev : lastNonzeroIdx (evenPol pol) = none :=
      lastNonzeroIdx_eq_none _ (evenPol_all_zero pol heven)
    cases hod : lastNonzeroIdx (oddPol pol) with
    | none =>
      constructor
      · unfold is_hurwitz
        rw [hod]
      · unfold is_hurwitz_cof
        rw [hod]
    | some n =>
      constructor
      · unfold is_hurwitz
        rw [hod, hev]
      · unfold is_hurwitz_cof
        rw [hod, hev]
  | inr hodd =>
    have hod : lastNonzeroIdx (oddPol pol) = none :=
      lastNonzeroIdx_eq_none _ (oddPol_all_zero pol hodd)
    constructor
    · unfold is_hurwitz
      rw [hod]
    · unfold is_hurwitz_cof
      rw [hod]

/-- Witness for C7 at pol = [0, 1], which has no nonzero even-indexed
coefficient. -/
theorem is_hurwitz_degenerate_split_witness :
    is_hurwitz [0, 1] = .error .indexError ∧
    is_hurwitz_cof [0, 1] = .error .indexError :=
  is_hurwitz_degenerate_split [0, 1] (Or.inl (by decide))

/-- Helper: the boolean all-positive check used by is_hurwitz agrees with
the decidable universal statement that every alpha is strictly positive. -/
theorem all_pos_decide (as : List ℚ) :
    (as.all fun a => decide (0 < a)) = decide (∀ a ∈ as, 0 < a) := by
  induction as with
  | nil => simp
  | cons a t ih =>
    rw [List.all_cons, ih]
    have h : (∀ x ∈ a :: t, (0:ℚ) < x) ↔ ((0:ℚ) < a ∧ ∀ x ∈ t, (0:ℚ) < x) :=
      List.forall_mem_cons
    rw [decide_eq_decide.mpr h, Bool.decide_and]

/-- Claim C1: for a polynomial with a nonzero odd-indexed coefficient (odd part
of degree n) and a nonzero even-indexed coefficient (even part of degree
m), is_hurwitz splits pol into its even and odd parts, takes
(num, den) = (even, odd) exactly when m > n and (odd, even) otherwise,
runs continued_fractions on that pair, and returns true iff every
resulting alpha is strictly positive; with the expansion requested it
also returns the alpha sequence. -/
theorem is_hurwitz_spec (pol : List ℚ) (m n : ℕ)
    (hn : lastNonzeroIdx (oddPol pol) = some n)
    (hm : lastNonzeroIdx (evenPol pol) = some m) :
    is_hurwitz pol =
      (continued_fractions (if m > n then evenPol pol else oddPol pol)
          (if m > n then oddPol pol else evenPol pol)).map
        (fun as => decide (∀ a ∈ as, 0 < a)) ∧
    is_hurwitz_cof pol =
      (continued_fractions (if m > n then evenPol pol else oddPol pol)
          (if m > n then oddPol pol else evenPol pol)).map
        (fun as => (decide (∀ a ∈ as, 0 < a), as)) := by
  constructor
  · simp only [is_hurwitz, hn, hm]
    cases hcf : continued_fractions (if m > n then evenPol pol else oddPol pol)
        (if m > n then oddPol pol else evenPol pol) with
    | error e => rfl
    | ok alphas => exact congrArg Except.ok (all_pos_decide alphas)
  · simp only [is_hurwitz_cof, hn, hm]
    cases hcf : continued_fractions (if m > n then evenPol pol else oddPol pol)
        (if m > n then oddPol pol else evenPol pol) with
    | error e => rfl
    | ok alphas =>
      exact congrArg Except.ok (congrArg (fun b => (b, alphas)) (all_pos_decide alphas))

/-- Witness for C1 at pol = [6, 11, 6, 1], whose odd part has degree 3 and
even part degree 2. -/
theorem is_hurwitz_spec_witness :
    is_hurwitz [6, 11, 6, 1] =
      (continued_fractions (if 2 > 3 then evenPol [6, 11, 6, 1] else oddPol [6, 11, 6, 1])
          (if 2 > 3 then oddPol [6, 11, 6, 1] else evenPol [6, 11, 6, 1])).map
        (fun as => decide (∀ a ∈ as, 0 < a)) ∧
    is_hurwitz_cof [6, 11, 6, 1] =
      (continued_fractions (if 2 > 3 then evenPol [6, 11, 6, 1] else oddPol [6, 11, 6, 1])
          (if 2 > 3 then oddPol [6, 11, 6, 1] else evenPol [6, 11, 6, 1])).map
        (fun as => (decide (∀ a ∈ as, 0 < a), as)) :=
  is_hurwitz_spec [6, 11, 6, 1] 2 3 rfl rfl

/-!
Transfer-function pipeline of filter_prototypes.py, over the mathematical
complex numbers.
-/

/-- Mirror of coefficients2hs in filter_prototypes.py: hs(s) is the scalar
numerator divided by the sum of b[k] * s^k for k running from n down
to 0 — the denominator coefficients are consumed in ascending-power
order. -/
noncomputable def coefficients2hs (a : ℂ) (b : List ℂ) (n : ℕ) : ℂ → ℂ :=
  fun s => a / (((List.range (n + 1)).reverse).map (fun k => b.getD k 0 * s ^ k)).sum

/-- Mirror of hs2hw in filter_prototypes.py: substitute s = j*w. -/
noncomputable def hs2hw (hs : ℂ → ℂ) : ℝ → ℂ :=
  fun w => hs (Complex.I * w)

/-- Mirror of hw2hwmag in filter_prototypes.py: complex modulus of the
frequency response. -/
noncomputable def hw2hwmag (hw : ℝ → ℂ) : ℝ → ℝ :=
  fun w => Complex.abs (hw w)

/-- Mirror of hw2hwphase in filter_prototypes.py: np.angle in radians
scaled to degrees. -/
noncomputable def hw2hwphase (hw : ℝ → ℂ) : ℝ → ℝ :=
  fun w => (hw w).arg * 180 / Real.pi

/-- Specification-side evaluator for comparison with coefficients2hs,
following the spec text: the denominator evaluated as a descending-power
polynomial, entry n - k multiplying s^k. -/
noncomputable def hsSpecDescending (a : ℂ) (b : List ℂ) (n : ℕ) : ℂ → ℂ :=
  fun s => a / (((List.range (n + 1)).map (fun k => b.getD (n - k) 0 * s ^ k)).sum)

/-- Claim C4 counterexample: with numerator 1, denominator [1, 2], order 1 and
s = 2, the code evaluates the denominator ascending (1 + 2s = 5) while
the spec formula evaluates it descending (2 + s = 4), so the claimed
identity fails. -/
theorem coefficients2hs_descending_cex :
    coefficients2hs 1 [1, 2] 1 2 ≠ hsSpecDescending 1 [1, 2] 1 2 := by
  unfold coefficients2hs hsSpecDescending
  simp [List.range_succ]
  norm_num

/-- Claim C4 amended: the evaluator returned by coefficients2hs divides the
numerator by the denominator evaluated as an ascending-power polynomial
in s — entry k multiplies s^k. -/
theorem coefficients2hs_ascending (a : ℂ) (b : List ℂ) (n : ℕ) (s : ℂ) :
    coefficients2hs a b n s =
      a / (((List.range (n + 1)).map (fun k => b.getD k 0 * s ^ k)).sum) := by
  unfold coefficients2hs
  rw [List.map_reverse, List.sum_reverse]

/-- Claim C9: hs depends only on denominator entries 0 through n: any two
denominator arrays that agree on those indices give pointwise-equal
evaluators, so entries beyond index n are silently ignored and the
exactly-(n+1)-entries constraint is never enforced. -/
theorem coefficients2hs_tail_ignored (a : ℂ) (n : ℕ) (b1 b2 : List ℂ)
    (hl1 : n + 1 ≤ b1.length) (hl2 : n + 1 ≤ b2.length)
    (hagree : ∀ k, k ≤ n → b1.getD k 0 = b2.getD k 0) (s : ℂ) :
    coefficients2hs a b1 n s = coefficients2hs a b2 n s := by
  unfold coefficients2hs
  have hmap : ((List.range (n + 1)).reverse).map (fun k => b1.getD k 0 * s ^ k)
      = ((List.range (n + 1)).reverse).map (fun k => b2.getD k 0 * s ^ k) := by
    apply List.map_congr_left
    intro k hk
    rw [List.mem_reverse, List.mem_range] at hk
    rw [hagree k (Nat.lt_succ_iff.mp hk)]
  rw [hmap]

/-- Witness for C9: a length-1 denominator and a length-2 denominator that
agree at index 0 give the same value at order 0. -/
theorem coefficients2hs_tail_ignored_witness :
    coefficients2hs 1 [1] 0 2 = coefficients2hs 1 [1, 5] 0 2 :=
  coefficients2hs_tail_ignored 1 0 [1] [1, 5] (by simp) (by simp)
    (fun k hk => by
      have hk0 : k = 0 := Nat.le_zero.mp hk
      subst hk0
      rfl) 2

/-- Claim C8: for every frequency response and every real frequency, the squared
magnitude is the sum of squares of real and imaginary parts, the response
is recovered from magnitude and degree phase via the polar round-trip,
and the degree phase lies in (-180, 180]. -/
theorem magnitude_phase_consistency (hw : ℝ → ℂ) (w : ℝ) :
    hw2hwmag hw w ^ 2 = (hw w).re ^ 2 + (hw w).im ^ 2 ∧
    hw w = (hw2hwmag hw w : ℂ) *
      Complex.exp (Complex.I * (hw2hwphase hw w : ℂ) * ((Real.pi : ℂ) / 180)) ∧
    -180 < hw2hwphase hw w ∧ hw2hwphase hw w ≤ 180 := by
  have hπ : (0:ℝ) < Real.pi := Real.pi_pos
  have hπc : (Real.pi : ℂ) ≠ 0 := Complex.ofReal_ne_zero.mpr (ne_of_gt hπ)
  refine ⟨?_, ?_, ?_, ?_⟩
  · unfold hw2hwmag
    rw [Complex.sq_abs, Complex.normSq_apply]
    ring
  · unfold hw2hwmag hw2hwphase
    have harg : Complex.I * ((((hw w).arg * 180 / Real.pi : ℝ)) : ℂ) * ((Real.pi : ℂ) / 180)
        = ((hw w).arg : ℂ) * Complex.I := by
      push_cast
      field_simp
      ring
    rw [harg]
    exact (Complex.abs_mul_exp_arg_mul_I (hw w)).symm
  · unfold hw2hwphase
    have h1 : -Real.pi < (hw w).arg := Complex.neg_pi_lt_arg _
    have he : (-180 : ℝ) = (-Real.pi) * 180 / Real.pi := by
      rw [eq_div_iff (ne_of_gt hπ)]
      ring
    rw [he]
    apply (div_lt_div_iff_of_pos_right hπ).mpr
    nlinarith [h1]
  · unfold hw2hwphase
    have h2 : (hw w).arg ≤ Real.pi := Complex.arg_le_pi _
    have he : (180 : ℝ) = Real.pi * 180 / Real.pi := by
      rw [eq_div_iff (ne_of_gt hπ)]
      ring
    rw [he]
    apply (div_le_div_iff_of_pos_right hπ).mpr
    nlinarith [h2]

